import Mathlib

/-!
Shallow embedding of the ktmeaton/rasterize-string repository.

The core under verification is the text rasterization pipeline of
crates/rasterize-text/src/lib.rs (the function rasterize together with the
Color model), plus the older variant crates/rasterize-string/src/lib.rs
(text_to_image_buffer).

Modelling conventions:
- Rust strings are lists of Unicode scalar values, written as naturals
  (codepoint 32 is the space character, 48..57 are the ASCII digits).
- The external font engine (rusttype) is opaque per the spec: a Font carries
  a vertical-metrics query and a layout function producing positioned glyphs;
  each glyph carries its optional pixel bounding box and the ordered list of
  coverage samples (x, y, v) that the engine's draw callback would emit.
- A coverage value v is an f32 in the interval from 0 to 1; every such f32 is
  an exact nonnegative rational, so v is modelled by a numerator and a
  denominator in Nat. The Rust saturating float-to-u8 cast of the channel
  product is then exactly truncation toward zero clamped to 0..255, which on
  these nonnegative values is Nat division capped at 255.
- The image crate's ImageBuffer is a width, a height and a row-major pixel
  list; get_pixel and put_pixel panic on out-of-bounds access in Rust, which
  is modelled by returning none, so an Option-valued compositor result of
  some canvas means the Rust code cannot panic.
-/

/-- Strings are modelled as lists of Unicode scalar values. -/
abbrev RStr := List Nat

/-- ASCII decimal digit test on a codepoint, as used by u8 parsing. -/
def isDigit (c : Nat) : Bool := 48 ≤ c && c ≤ 57

/-- Core loop of Rust u8::from_str: consume decimal digits left to right with
a checked accumulator; any non-digit or any intermediate value above 255
fails, mirroring InvalidDigit and PosOverflow. -/
def parseU8Core : RStr → Nat → Option Nat
  | [], acc => some acc
  | c :: cs, acc =>
    if isDigit c then
      if acc * 10 + (c - 48) ≤ 255 then parseU8Core cs (acc * 10 + (c - 48)) else none
    else none

/-- Rust u8::from_str on a field: an optional leading plus sign (codepoint 43),
then at least one digit; the empty string fails. -/
def parseU8 (s : RStr) : Option Nat :=
  match s with
  | [] => none
  | c :: cs =>
    if c = 43 then
      match cs with
      | [] => none
      | _ => parseU8Core cs 0
    else parseU8Core (c :: cs) 0

/-- Rust str::split on the single-space pattern: splits at every space,
keeping empty pieces, and the empty string yields one empty piece. -/
def splitSpace : RStr → List RStr
  | [] => [[]]
  | c :: cs =>
    if c = 32 then [] :: splitSpace cs
    else
      match splitSpace cs with
      | [] => [[c]]
      | p :: ps => (c :: p) :: ps

/-- The Color struct of rasterize-text: four unsigned 8-bit channels,
modelled as naturals (the theorems carry the 0..255 bounds explicitly). -/
structure Color where
  r : Nat
  g : Nat
  b : Nat
  a : Nat
deriving DecidableEq

/-- The ColorError enum of rasterize-text. RgbaParseError carries the
original string and the offending field (the ParseIntError cause is not
modelled); RgbaLengthError carries the successfully parsed values. -/
inductive ColorError where
  | RgbaParseError (original : RStr) (field : RStr)
  | RgbaLengthError (rgba : List Nat)
deriving DecidableEq

/-- The map-then-collect step of Color::from_str: parse every field to a u8,
stopping at the first failure, which is reported together with the original
string, exactly as the Rust collect over Result does. -/
def collectRgba (original : RStr) : List RStr → Except ColorError (List Nat)
  | [] => Except.ok []
  | f :: fs =>
    match parseU8 f with
    | none => Except.error (ColorError.RgbaParseError original f)
    | some v =>
      match collectRgba original fs with
      | Except.error e => Except.error e
      | Except.ok vs => Except.ok (v :: vs)

/-- Color::from_str: split on single spaces, parse all fields (first parse
failure wins), then require exactly four values. -/
def Color.fromStr (s : RStr) : Except ColorError Color :=
  match collectRgba s (splitSpace s) with
  | Except.error e => Except.error e
  | Except.ok rgba =>
    match rgba with
    | [r, g, b, a] => Except.ok ⟨r, g, b, a⟩
    | _ => Except.error (ColorError.RgbaLengthError rgba)

/-- Decimal digit emitter with fuel, so that it reduces in the kernel; the
fuel is always sufficient for the 8-bit values at hand. -/
def natReprAux : Nat → Nat → RStr
  | 0, _ => []
  | fuel + 1, n => if n < 10 then [48 + n] else natReprAux fuel (n / 10) ++ [48 + n % 10]

/-- Decimal representation of a natural, most significant digit first, no
leading zeros, as produced by the Rust Display instance for u8. -/
def natRepr (n : Nat) : RStr := natReprAux (n + 1) n

/-- The Display instance of Color: the four channels in decimal separated by
single spaces. -/
def Color.format (c : Color) : RStr :=
  natRepr c.r ++ 32 :: (natRepr c.g ++ 32 :: (natRepr c.b ++ 32 :: natRepr c.a))

/-- Numeric value of a list of ASCII digit codepoints, most significant
first. -/
def digitsVal (l : RStr) : Nat := l.foldl (fun acc c => acc * 10 + (c - 48)) 0

/-- Canonical textual form of one color field per the spec: nonempty, all
decimal digits, no leading zero, value at most 255. -/
def isCanonicalField (l : RStr) : Bool :=
  !l.isEmpty && l.all isDigit &&
    (match l with
     | 48 :: _ :: _ => false
     | _ => true) &&
    decide (digitsVal l ≤ 255)

/-- An RGBA pixel value (r, g, b, a). -/
abbrev Pixel := Nat × Nat × Nat × Nat

/-- The fully transparent default pixel of a fresh ImageBuffer. -/
def defaultPixel : Pixel := (0, 0, 0, 0)

/-- A glyph pixel bounding box, rusttype Rect with i32 point coordinates. -/
structure BBox where
  minX : Int
  minY : Int
  maxX : Int
  maxY : Int
deriving DecidableEq

/-- One coverage sample (x, y, v) of the draw callback: x and y are relative
to the glyph's pixel bounding box and the coverage v is the exact rational
vn / vd (an f32 between 0 and 1 is such a rational with vn at most vd). -/
structure Sample where
  x : Nat
  y : Nat
  vn : Nat
  vd : Nat
deriving DecidableEq

/-- A positioned glyph as the font engine returns it: an optional pixel
bounding box and the ordered coverage samples that the draw callback emits. -/
structure Glyph where
  bb : Option BBox
  samples : List Sample
deriving DecidableEq

/-- The vertical metrics of a font at a scale (rusttype VMetrics). -/
structure VMetrics where
  ascent : ℚ
  descent : ℚ
  lineGap : ℚ

/-- The opaque font engine interface used by the pipeline: vertical metrics
at a uniform scale, and horizontal layout of a string at a scale from a pen
origin. -/
structure Font where
  vmetrics : ℚ → VMetrics
  layout : RStr → ℚ → ℚ × ℚ → List Glyph

/-- The ImageBuffer: a width, a height and a row-major list of pixels. -/
structure Canvas where
  width : Nat
  height : Nat
  data : List Pixel
deriving DecidableEq

/-- ImageBuffer::new: dimensions with an all-default (transparent) buffer. -/
def Canvas.new (w h : Nat) : Canvas := ⟨w, h, List.replicate (w * h) defaultPixel⟩

/-- The buffer length invariant that ImageBuffer maintains by construction. -/
def Canvas.wf (c : Canvas) : Prop := c.data.length = c.width * c.height

/-- ImageBuffer::get_pixel at signed coordinates: panics (none) when the
coordinate is outside the canvas, otherwise reads the row-major buffer. -/
def Canvas.getPixel (c : Canvas) (x y : Int) : Option Pixel :=
  if 0 ≤ x ∧ x < (c.width : Int) ∧ 0 ≤ y ∧ y < (c.height : Int) then
    some (c.data.getD (y.toNat * c.width + x.toNat) defaultPixel)
  else none

/-- ImageBuffer::put_pixel at signed coordinates: panics (none) when the
coordinate is outside the canvas, otherwise updates the row-major buffer. -/
def Canvas.putPixel (c : Canvas) (x y : Int) (p : Pixel) : Option Canvas :=
  if 0 ≤ x ∧ x < (c.width : Int) ∧ 0 ≤ y ∧ y < (c.height : Int) then
    some ⟨c.width, c.height, c.data.set (y.toNat * c.width + x.toNat) p⟩
  else none

/-- The Rust expression (channel as f32 * v) as u8 for the coverage
v = vn / vd: the float-to-u8 cast truncates toward zero and saturates into
0..255; on the nonnegative product this is Nat floor division capped at 255
(the lower clamp of the cast can never fire on nonnegative values). -/
def scaleChannel (c vn vd : Nat) : Nat := Nat.min 255 (c * vn / vd)

/-- The pixel constructed for one coverage sample in rasterize: every channel
of the color is multiplied by the coverage and cast to u8. -/
def computePixel (color : Color) (vn vd : Nat) : Pixel :=
  (scaleChannel color.r vn vd, scaleChannel color.g vn vd,
   scaleChannel color.b vn vd, scaleChannel color.a vn vd)

/-- The x coordinate conversion of rasterize: offset by the bounding box
minimum when it is nonnegative, otherwise use the relative coordinate as is. -/
def convX (bb : BBox) (xr : Nat) : Int :=
  if bb.minX ≥ 0 then (xr : Int) + bb.minX else (xr : Int)

/-- The y coordinate conversion of rasterize, same rule as for x. -/
def convY (bb : BBox) (yr : Nat) : Int :=
  if bb.minY ≥ 0 then (yr : Int) + bb.minY else (yr : Int)

/-- The body of the draw closure in rasterize for one coverage sample:
convert to canvas coordinates, build the pixel, and write it only when the
pixel currently stored there is still the default. -/
def compositeSample (color : Color) (bb : BBox) (canvas : Canvas) (s : Sample) :
    Option Canvas :=
  let cy := convY bb s.y
  let cx := convX bb s.x
  let pixel := computePixel color s.vn s.vd
  match canvas.getPixel cx cy with
  | none => none
  | some p => if p = defaultPixel then canvas.putPixel cx cy pixel else some canvas

/-- One iteration of the glyph loop in rasterize: glyphs without a pixel
bounding box contribute nothing, otherwise all coverage samples are
composited in draw order. -/
def compositeGlyph (color : Color) (canvas : Canvas) (g : Glyph) : Option Canvas :=
  match g.bb with
  | none => some canvas
  | some bb => g.samples.foldlM (compositeSample color bb) canvas

/-- The full glyph loop of rasterize over the laid-out glyphs in order. -/
def compositeGlyphs (color : Color) (canvas : Canvas) (gs : List Glyph) : Option Canvas :=
  gs.foldlM (compositeGlyph color) canvas

/-- Modelled from the spec (section 4.4): the canvas x coordinate of a
sample, written exactly as the spec words it; if b.min.x is at least 0 then
cx is xr plus b.min.x, else cx is xr. Compared against the conversion in the
source. -/
def specCx (b : BBox) (xr : Nat) : Int :=
  if b.minX ≥ 0 then (xr : Int) + b.minX else (xr : Int)

/-- Modelled from the spec (section 4.4): the canvas y coordinate of a
sample, same clamping rule as the x axis. -/
def specCy (b : BBox) (yr : Nat) : Int :=
  if b.minY ≥ 0 then (yr : Int) + b.minY else (yr : Int)

/-- Well-formedness of a laid-out glyph, the contract of the font engine:
every coverage sample lies inside the pixel bounding box, whose width and
height bound the relative coordinates. -/
def Glyph.wf (g : Glyph) : Prop :=
  ∀ bb, g.bb = some bb → ∀ s ∈ g.samples,
    (s.x : Int) < bb.maxX - bb.minX ∧ (s.y : Int) < bb.maxY - bb.minY

/-- The flat write requests a glyph generates, in draw order: canvas target
coordinates and the computed pixel of each coverage sample. -/
def glyphWrites (color : Color) (g : Glyph) : List (Int × Int × Pixel) :=
  match g.bb with
  | none => []
  | some bb => g.samples.map (fun s => (convX bb s.x, convY bb s.y, computePixel color s.vn s.vd))

/-- All write requests of a glyph sequence, in composite order. -/
def allWrites (color : Color) (gs : List Glyph) : List (Int × Int × Pixel) :=
  gs.flatMap (glyphWrites color)

/-- Replay of a write-request list against a canvas under the one-shot rule
of the source: read the target pixel, write only when it is still the
default. This is the compositor reformulated on flattened writes. -/
def compositeWrites (canvas : Canvas) : List (Int × Int × Pixel) → Option Canvas
  | [] => some canvas
  | w :: ws =>
    match canvas.getPixel w.1 w.2.1 with
    | none => none
    | some p =>
      match (if p = defaultPixel then canvas.putPixel w.1 w.2.1 w.2.2 else some canvas) with
      | none => none
      | some c1 => compositeWrites c1 ws

/-- The pixel that survives at a location: the first write request in
composite order targeting it whose pixel differs from the default, or the
default when there is none. This is the claimed overlap rule. -/
def survivingPixel (x y : Int) : List (Int × Int × Pixel) → Pixel
  | [] => defaultPixel
  | w :: ws =>
    if w.1 = x ∧ w.2.1 = y ∧ w.2.2 ≠ defaultPixel then w.2.2 else survivingPixel x y ws

/-- The running extents record of rasterize. -/
structure Extents where
  minX : Int
  maxX : Int
  minY : Int
  maxY : Int
deriving DecidableEq

/-- One extents update of rasterize: widen each bound by the glyph's pixel
bounding box when it has one. -/
def updateExtents (e : Extents) (g : Glyph) : Extents :=
  match g.bb with
  | none => e
  | some bb =>
    { minX := if bb.minX < e.minX then bb.minX else e.minX
      maxX := if bb.maxX > e.maxX then bb.maxX else e.maxX
      minY := if bb.minY < e.minY then bb.minY else e.minY
      maxY := if bb.maxY > e.maxY then bb.maxY else e.maxY }

/-- The extents accumulation of rasterize, starting from (0, 0, 0, 0). -/
def computeExtents (gs : List Glyph) : Extents := gs.foldl updateExtents ⟨0, 0, 0, 0⟩

/-- The layout call of rasterize: normalize the text, then lay it out at the
uniform scale from the pen origin (0, 0 + ascent). The normalization function
is a parameter because the unicode-normalization crate is an external
collaborator. -/
def layoutOf (nfc : RStr → RStr) (text : RStr) (font : Font) (size : ℚ) : List Glyph :=
  font.layout (nfc text) size (0, 0 + (font.vmetrics size).ascent)

/-- The rasterize function of rasterize-text: normalize and lay out the text,
accumulate the ink extents, allocate a width by height canvas from them
(both differences are nonnegative, so the u32 cast is Int.toNat), and
composite every glyph. The metrics-derived height of the older variant is
commented out in the source and does not participate. -/
def rasterize (nfc : RStr → RStr) (text : RStr) (font : Font) (size : ℚ) (color : Color) :
    Option Canvas :=
  let glyphs := layoutOf nfc text font size
  let e := computeExtents glyphs
  let width := e.maxX - e.minX
  let height := e.maxY - e.minY
  compositeGlyphs color (Canvas.new width.toNat height.toNat) glyphs

/-- The x-only extents accumulation of text_to_image_buffer. -/
def xExtents (gs : List Glyph) : Int × Int :=
  gs.foldl
    (fun p g =>
      match g.bb with
      | none => p
      | some bb =>
        (if bb.minX < p.1 then bb.minX else p.1, if bb.maxX > p.2 then bb.maxX else p.2))
    (0, 0)

/-- The sample step of text_to_image_buffer: unlike rasterize, the y
coordinate is offset by the bounding box minimum unconditionally; only the x
axis gets the negative-origin special case. -/
def compositeSampleTib (color : Color) (bb : BBox) (canvas : Canvas) (s : Sample) :
    Option Canvas :=
  let cy := (s.y : Int) + bb.minY
  let cx := convX bb s.x
  let pixel := computePixel color s.vn s.vd
  match canvas.getPixel cx cy with
  | none => none
  | some p => if p = defaultPixel then canvas.putPixel cx cy pixel else some canvas

/-- The text_to_image_buffer function of the older rasterize-string crate:
no Unicode normalization, metrics-derived height, width from the x extents
(max when the minimum is nonnegative, else the difference). -/
def text_to_image_buffer (text : RStr) (font : Font) (fontSize : ℚ) (color : Color) :
    Option Canvas :=
  let metrics := font.vmetrics fontSize
  let glyphs := font.layout text fontSize (0, 0 + metrics.ascent)
  let height := Int.toNat ⌈metrics.ascent - metrics.descent⌉
  let ext := xExtents glyphs
  let width := if ext.1 ≥ 0 then ext.2 else ext.2 - ext.1
  glyphs.foldlM
    (fun c g =>
      match g.bb with
      | none => some c
      | some bb => g.samples.foldlM (compositeSampleTib color bb) c)
    (Canvas.new width.toNat height)

/-- Test glyph whose single sample has coverage 0, so its computed pixel is
the default. -/
def demoG0 : Glyph := ⟨some ⟨0, 0, 1, 1⟩, [⟨0, 0, 0, 1⟩]⟩

/-- Test glyph whose single sample has coverage 1. -/
def demoG1 : Glyph := ⟨some ⟨0, 0, 1, 1⟩, [⟨0, 0, 1, 1⟩]⟩

/-- Test font: both test glyphs on a one-pixel canvas, overlapping at the
origin; the zero-coverage glyph comes first in layout order. -/
def demoFont : Font := ⟨fun _ => ⟨0, 0, 0⟩, fun _ _ _ => [demoG0, demoG1]⟩

/-- Test color, opaque red. -/
def demoColor : Color := ⟨255, 0, 0, 255⟩

/-- Test font whose layout is empty for every input. -/
def emptyFont : Font := ⟨fun _ => ⟨0, 0, 0⟩, fun _ _ _ => []⟩

/-- Test font that lays out one inkless glyph (no pixel bounding box), the
whitespace situation. -/
def blankFont : Font := ⟨fun _ => ⟨0, 0, 0⟩, fun _ _ _ => [⟨none, []⟩]⟩

/-- Test glyph with a negative bounding box origin, as a leading letter T
with kerning produces, with one sample of coverage one half. -/
def negG : Glyph := ⟨some ⟨-2, -1, 4, 5⟩, [⟨1, 2, 1, 2⟩]⟩

/-- Test font laying out the negative-origin glyph. -/
def negFont : Font := ⟨fun _ => ⟨0, 0, 0⟩, fun _ _ _ => [negG]⟩

/-! ## Helper lemmas on the color textual form -/

theorem digit_ne_space {c : Nat} (h : isDigit c = true) : c ≠ 32 := by
  simp [isDigit] at h
  omega

theorem splitSpace_no_space (l : RStr) (h : ∀ c ∈ l, c ≠ 32) : splitSpace l = [l] := by
  induction l with
  | nil => rfl
  | cons c cs ih =>
    have hc : c ≠ 32 := h c (List.mem_cons_self _ _)
    have h2 := ih (fun d hd => h d (List.mem_cons_of_mem _ hd))
    simp [splitSpace, hc, h2]

theorem splitSpace_append (l r : RStr) (h : ∀ c ∈ l, c ≠ 32) :
    splitSpace (l ++ 32 :: r) = l :: splitSpace r := by
  induction l with
  | nil => simp [splitSpace]
  | cons c cs ih =>
    have hc : c ≠ 32 := h c (List.mem_cons_self _ _)
    have h2 := ih (fun d hd => h d (List.mem_cons_of_mem _ hd))
    simp [splitSpace, hc, h2]

theorem digitsVal_go (l : RStr) : ∀ a : Nat,
    l.foldl (fun acc c => acc * 10 + (c - 48)) a = a * 10 ^ l.length + digitsVal l := by
  induction l with
  | nil => intro a; simp [digitsVal]
  | cons c cs ih =>
    intro a
    have h1 : (c :: cs).foldl (fun acc c => acc * 10 + (c - 48)) a
        = cs.foldl (fun acc c => acc * 10 + (c - 48)) (a * 10 + (c - 48)) := rfl
    have h2 : digitsVal (c :: cs) = cs.foldl (fun acc c => acc * 10 + (c - 48)) (c - 48) := by
      have : (0 : Nat) * 10 + (c - 48) = c - 48 := by omega
      simp [digitsVal, List.foldl, this]
    rw [h1, ih, h2, ih]
    simp [List.length_cons, pow_succ]
    ring

theorem digitsVal_cons (c : Nat) (cs : RStr) :
    digitsVal (c :: cs) = (c - 48) * 10 ^ cs.length + digitsVal cs := by
  have : digitsVal (c :: cs) = cs.foldl (fun acc c => acc * 10 + (c - 48)) (c - 48) := by
    have : (0 : Nat) * 10 + (c - 48) = c - 48 := by omega
    simp [digitsVal, List.foldl, this]
  rw [this, digitsVal_go]

set_option maxRecDepth 8000 in
theorem natRepr_all_digits : ∀ n, n < 256 → (natRepr n).all isDigit = true := by decide

set_option maxRecDepth 8000 in
theorem parseU8_natRepr : ∀ n, n < 256 → parseU8 (natRepr n) = some n := by decide

set_option maxRecDepth 2000 in
theorem natRepr_one_digit : ∀ x, x < 10 → natRepr x = [48 + x] := by decide

set_option maxRecDepth 8000 in
theorem natRepr_two_digits : ∀ x, x < 10 → ∀ y, y < 10 → 1 ≤ x →
    natRepr (x * 10 + y) = [48 + x, 48 + y] := by decide

set_option maxRecDepth 100000 in
theorem natRepr_three_digits : ∀ x, x < 10 → ∀ y, y < 10 → ∀ z, z < 10 →
    1 ≤ x ∧ x * 100 + y * 10 + z ≤ 255 →
    natRepr (x * 100 + y * 10 + z) = [48 + x, 48 + y, 48 + z] := by decide

theorem natRepr_no_space (n : Nat) (h : n < 256) : ∀ c ∈ natRepr n, c ≠ 32 := by
  intro c hc
  have := natRepr_all_digits n h
  rw [List.all_eq_true] at this
  exact digit_ne_space (this c hc)

theorem isCanonicalField_parts (l : RStr) (h : isCanonicalField l = true) :
    l ≠ [] ∧ (∀ c ∈ l, isDigit c = true) ∧ digitsVal l ≤ 255 := by
  unfold isCanonicalField at h
  rw [Bool.and_eq_true, Bool.and_eq_true, Bool.and_eq_true] at h
  obtain ⟨⟨⟨h1, h2⟩, _⟩, h4⟩ := h
  refine ⟨?_, ?_, of_decide_eq_true h4⟩
  · intro hnil
    subst hnil
    simp at h1
  · intro c hc
    exact List.all_eq_true.mp h2 c hc

theorem isCanonicalField_no_lz (a b : Nat) (tl : RStr)
    (h : isCanonicalField (a :: b :: tl) = true) : a ≠ 48 := by
  intro ha
  subst ha
  unfold isCanonicalField at h
  rw [Bool.and_eq_true, Bool.and_eq_true, Bool.and_eq_true] at h
  obtain ⟨⟨⟨_, _⟩, h3⟩, _⟩ := h
  simp at h3

theorem canonical_length_le (l : RStr) (h : isCanonicalField l = true) : l.length ≤ 3 := by
  rcases l with _ | ⟨a, _ | ⟨b, _ | ⟨c, _ | ⟨d, tl⟩⟩⟩⟩
  · simp
  · simp
  · simp
  · simp
  · exfalso
    obtain ⟨_, hdig, hval⟩ := isCanonicalField_parts _ h
    have ha48 : a ≠ 48 := isCanonicalField_no_lz a b _ h
    have hadig : isDigit a = true := hdig a (by simp)
    have ha : 49 ≤ a := by
      simp [isDigit] at hadig
      omega
    have hcons := digitsVal_cons a (b :: c :: d :: tl)
    have hpow : 10 ^ 3 ≤ 10 ^ (b :: c :: d :: tl).length := by
      apply Nat.pow_le_pow_right (by norm_num)
      simp [List.length_cons]
    have hbig : 1000 ≤ digitsVal (a :: b :: c :: d :: tl) := by
      rw [hcons]
      have h1 : 1 ≤ a - 48 := by omega
      calc (1000 : Nat) = 1 * 10 ^ 3 := by norm_num
        _ ≤ (a - 48) * 10 ^ (b :: c :: d :: tl).length := Nat.mul_le_mul h1 hpow
        _ ≤ _ := Nat.le_add_right _ _
    omega

theorem canonical_natRepr (l : RStr) (h : isCanonicalField l = true) :
    natRepr (digitsVal l) = l := by
  have hlen := canonical_length_le l h
  obtain ⟨hne, hdig, hval⟩ := isCanonicalField_parts _ h
  rcases l with _ | ⟨a, _ | ⟨b, _ | ⟨c, _ | ⟨d, tl⟩⟩⟩⟩
  · exact absurd rfl hne
  · have ha : isDigit a = true := hdig a (by simp)
    have ha2 : 48 ≤ a ∧ a ≤ 57 := by
      simp [isDigit] at ha
      omega
    have hv : digitsVal [a] = a - 48 := by
      simp [digitsVal]
    rw [hv, natRepr_one_digit (a - 48) (by omega)]
    have e1 : 48 + (a - 48) = a := by omega
    rw [e1]
  · have ha : isDigit a = true := hdig a (by simp)
    have hb : isDigit b = true := hdig b (by simp)
    have ha48 : a ≠ 48 := isCanonicalField_no_lz a b _ h
    have ha2 : 48 ≤ a ∧ a ≤ 57 := by
      simp [isDigit] at ha
      omega
    have hb2 : 48 ≤ b ∧ b ≤ 57 := by
      simp [isDigit] at hb
      omega
    have hv : digitsVal [a, b] = (a - 48) * 10 + (b - 48) := by
      simp [digitsVal]
    rw [hv, natRepr_two_digits (a - 48) (by omega) (b - 48) (by omega) (by omega)]
    have e1 : 48 + (a - 48) = a := by omega
    have e2 : 48 + (b - 48) = b := by omega
    rw [e1, e2]
  · have ha : isDigit a = true := hdig a (by simp)
    have hb : isDigit b = true := hdig b (by simp)
    have hc : isDigit c = true := hdig c (by simp)
    have ha48 : a ≠ 48 := isCanonicalField_no_lz a b _ h
    have ha2 : 48 ≤ a ∧ a ≤ 57 := by
      simp [isDigit] at ha
      omega
    have hb2 : 48 ≤ b ∧ b ≤ 57 := by
      simp [isDigit] at hb
      omega
    have hc2 : 48 ≤ c ∧ c ≤ 57 := by
      simp [isDigit] at hc
      omega
    have hv : digitsVal [a, b, c] = (a - 48) * 100 + (b - 48) * 10 + (c - 48) := by
      simp [digitsVal]
      ring_nf
    rw [hv] at hval ⊢
    rw [natRepr_three_digits (a - 48) (by omega) (b - 48) (by omega) (c - 48) (by omega)
      ⟨by omega, by omega⟩]
    have e1 : 48 + (a - 48) = a := by omega
    have e2 : 48 + (b - 48) = b := by omega
    have e3 : 48 + (c - 48) = c := by omega
    rw [e1, e2, e3]
  · exfalso
    simp [List.length_cons] at hlen

theorem parseU8Core_digits (l : RStr) : ∀ a : Nat, (∀ c ∈ l, isDigit c = true) →
    a * 10 ^ l.length + digitsVal l ≤ 255 →
    parseU8Core l a = some (a * 10 ^ l.length + digitsVal l) := by
  induction l with
  | nil =>
    intro a _ _
    simp [parseU8Core, digitsVal]
  | cons c cs ih =>
    intro a hdig hbound
    have hc : isDigit c = true := hdig c (by simp)
    have key : a * 10 ^ (c :: cs).length + digitsVal (c :: cs)
        = (a * 10 + (c - 48)) * 10 ^ cs.length + digitsVal cs := by
      rw [digitsVal_cons]
      simp [List.length_cons, pow_succ]
      ring
    have hacc : a * 10 + (c - 48) ≤ 255 := by
      have h1 : a * 10 + (c - 48) ≤ (a * 10 + (c - 48)) * 10 ^ cs.length :=
        Nat.le_mul_of_pos_right _ (Nat.pos_pow_of_pos _ (by norm_num))
      rw [key] at hbound
      omega
    have step : parseU8Core (c :: cs) a = parseU8Core cs (a * 10 + (c - 48)) := by
      simp [parseU8Core, hc, hacc]
    rw [step, ih (a * 10 + (c - 48)) (fun d hd => hdig d (by simp [hd]))
      (by rw [← key]; exact hbound), key]

theorem parseU8_canonical (l : RStr) (h : isCanonicalField l = true) :
    parseU8 l = some (digitsVal l) := by
  obtain ⟨hne, hdig, hval⟩ := isCanonicalField_parts _ h
  rcases l with _ | ⟨c, cs⟩
  · exact absurd rfl hne
  · have hc : isDigit c = true := hdig c (by simp)
    have hc43 : ¬(c = 43) := by
      simp [isDigit] at hc
      omega
    have hb : (0 : Nat) * 10 ^ (c :: cs).length + digitsVal (c :: cs) ≤ 255 := by
      simpa using hval
    have := parseU8Core_digits (c :: cs) 0 hdig hb
    simp only [parseU8, if_neg hc43]
    rw [this]
    simp

theorem collectRgba_all_some (s : RStr) (fs : List RStr)
    (h : ∀ f ∈ fs, (parseU8 f).isSome) :
    collectRgba s fs = Except.ok (fs.map (fun f => (parseU8 f).getD 0)) := by
  induction fs with
  | nil => rfl
  | cons f fs ih =>
    have hf := h f (by simp)
    obtain ⟨v, hv⟩ := Option.isSome_iff_exists.mp hf
    have htl := ih (fun d hd => h d (by simp [hd]))
    simp [collectRgba, hv, htl]

theorem collectRgba_first_bad (s : RStr) (fs : List RStr) (f : RStr)
    (h : fs.find? (fun t => (parseU8 t).isNone) = some f) :
    collectRgba s fs = Except.error (ColorError.RgbaParseError s f) := by
  induction fs with
  | nil => simp at h
  | cons g gs ih =>
    cases hpg : parseU8 g with
    | none =>
      have hstep : (g :: gs).find? (fun t => (parseU8 t).isNone) = some g := by
        simp [List.find?, hpg]
      rw [hstep] at h
      injection h with h
      subst h
      simp [collectRgba, hpg]
    | some v =>
      have hstep : (g :: gs).find? (fun t => (parseU8 t).isNone)
          = gs.find? (fun t => (parseU8 t).isNone) := by
        simp [List.find?, hpg]
      rw [hstep] at h
      simp [collectRgba, hpg, ih h]

theorem fromStr_eq_error (s : RStr) (e : ColorError)
    (h : collectRgba s (splitSpace s) = Except.error e) :
    Color.fromStr s = Except.error e := by
  unfold Color.fromStr
  rw [h]

theorem fromStr_eq_ok (s : RStr) (v1 v2 v3 v4 : Nat)
    (h : collectRgba s (splitSpace s) = Except.ok [v1, v2, v3, v4]) :
    Color.fromStr s = Except.ok ⟨v1, v2, v3, v4⟩ := by
  unfold Color.fromStr
  rw [h]

theorem fromStr_eq_length_error (s : RStr) (vs : List Nat)
    (h : collectRgba s (splitSpace s) = Except.ok vs) (hlen : vs.length ≠ 4) :
    Color.fromStr s = Except.error (ColorError.RgbaLengthError vs) := by
  unfold Color.fromStr
  rw [h]
  rcases vs with _ | ⟨a, _ | ⟨b, _ | ⟨c, _ | ⟨d, _ | ⟨e, tl⟩⟩⟩⟩⟩
  · rfl
  · rfl
  · rfl
  · rfl
  · simp at hlen
  · rfl

theorem splitSpace_format (c : Color) (hr : c.r < 256) (hg : c.g < 256) (hb : c.b < 256)
    (ha : c.a < 256) :
    splitSpace (Color.format c) = [natRepr c.r, natRepr c.g, natRepr c.b, natRepr c.a] := by
  unfold Color.format
  rw [splitSpace_append _ _ (natRepr_no_space _ hr),
    splitSpace_append _ _ (natRepr_no_space _ hg),
    splitSpace_append _ _ (natRepr_no_space _ hb),
    splitSpace_no_space _ (natRepr_no_space _ ha)]

theorem length_four_shape (vs : List Nat) (h : vs.length = 4) :
    ∃ a b c d, vs = [a, b, c, d] := by
  rcases vs with _ | ⟨a, _ | ⟨b, _ | ⟨c, _ | ⟨d, _ | ⟨e, tl⟩⟩⟩⟩⟩
  · simp at h
  · simp at h
  · simp at h
  · simp at h
  · exact ⟨a, b, c, d, rfl⟩
  · simp at h

/-- C5: for every Color with four 8-bit channels, parsing the formatted
string yields an equal color; and for every string of four canonical fields
(no leading zeros, single spaces, each field a 0..=255 decimal) formatting
the parsed color returns the string unchanged. -/
theorem color_roundtrip :
    (∀ c : Color, c.r ≤ 255 → c.g ≤ 255 → c.b ≤ 255 → c.a ≤ 255 →
      Color.fromStr (Color.format c) = Except.ok c)
    ∧ (∀ f1 f2 f3 f4 : RStr, isCanonicalField f1 = true → isCanonicalField f2 = true →
      isCanonicalField f3 = true → isCanonicalField f4 = true →
      Except.map Color.format (Color.fromStr (f1 ++ 32 :: (f2 ++ 32 :: (f3 ++ 32 :: f4))))
        = Except.ok (f1 ++ 32 :: (f2 ++ 32 :: (f3 ++ 32 :: f4)))) := by
  constructor
  · intro c hr hg hb ha
    have hsplit := splitSpace_format c (by omega) (by omega) (by omega) (by omega)
    have hall : ∀ f ∈ [natRepr c.r, natRepr c.g, natRepr c.b, natRepr c.a],
        (parseU8 f).isSome := by
      intro f hf
      simp at hf
      rcases hf with h | h | h | h
      · subst h; rw [parseU8_natRepr c.r (by omega)]; rfl
      · subst h; rw [parseU8_natRepr c.g (by omega)]; rfl
      · subst h; rw [parseU8_natRepr c.b (by omega)]; rfl
      · subst h; rw [parseU8_natRepr c.a (by omega)]; rfl
    have hcollect : collectRgba (Color.format c) (splitSpace (Color.format c))
        = Except.ok [c.r, c.g, c.b, c.a] := by
      rw [hsplit, collectRgba_all_some _ _ hall]
      simp [parseU8_natRepr c.r (by omega : c.r < 256), parseU8_natRepr c.g (by omega : c.g < 256),
        parseU8_natRepr c.b (by omega : c.b < 256), parseU8_natRepr c.a (by omega : c.a < 256)]
    rw [fromStr_eq_ok _ _ _ _ _ hcollect]
  · intro f1 f2 f3 f4 h1 h2 h3 h4
    have hns1 : ∀ c ∈ f1, c ≠ 32 :=
      fun c hc => digit_ne_space ((isCanonicalField_parts f1 h1).2.1 c hc)
    have hns2 : ∀ c ∈ f2, c ≠ 32 :=
      fun c hc => digit_ne_space ((isCanonicalField_parts f2 h2).2.1 c hc)
    have hns3 : ∀ c ∈ f3, c ≠ 32 :=
      fun c hc => digit_ne_space ((isCanonicalField_parts f3 h3).2.1 c hc)
    have hns4 : ∀ c ∈ f4, c ≠ 32 :=
      fun c hc => digit_ne_space ((isCanonicalField_parts f4 h4).2.1 c hc)
    have hsplit : splitSpace (f1 ++ 32 :: (f2 ++ 32 :: (f3 ++ 32 :: f4))) = [f1, f2, f3, f4] := by
      rw [splitSpace_append _ _ hns1, splitSpace_append _ _ hns2, splitSpace_append _ _ hns3,
        splitSpace_no_space _ hns4]
    have hcollect : collectRgba (f1 ++ 32 :: (f2 ++ 32 :: (f3 ++ 32 :: f4)))
        (splitSpace (f1 ++ 32 :: (f2 ++ 32 :: (f3 ++ 32 :: f4))))
        = Except.ok [digitsVal f1, digitsVal f2, digitsVal f3, digitsVal f4] := by
      rw [hsplit]
      simp [collectRgba, parseU8_canonical f1 h1, parseU8_canonical f2 h2,
        parseU8_canonical f3 h3, parseU8_canonical f4 h4]
    rw [fromStr_eq_ok _ _ _ _ _ hcollect]
    simp [Except.map, Color.format, canonical_natRepr f1 h1, canonical_natRepr f2 h2,
      canonical_natRepr f3 h3, canonical_natRepr f4 h4]

/-- Witness for C5 at a concrete color and the concrete canonical string
12 34 56 78. -/
theorem color_roundtrip_witness :
    Color.fromStr (Color.format ⟨255, 0, 0, 255⟩) = Except.ok ⟨255, 0, 0, 255⟩
    ∧ Except.map Color.format
        (Color.fromStr ([49, 50] ++ 32 :: ([51, 52] ++ 32 :: ([53, 54] ++ 32 :: [55, 56]))))
      = Except.ok ([49, 50] ++ 32 :: ([51, 52] ++ 32 :: ([53, 54] ++ 32 :: [55, 56]))) :=
  ⟨color_roundtrip.1 ⟨255, 0, 0, 255⟩ (by decide) (by decide) (by decide) (by decide),
   color_roundtrip.2 [49, 50] [51, 52] [53, 54] [55, 56]
     (by decide) (by decide) (by decide) (by decide)⟩

/-- C6 is false as stated: the string 0 0 0 x 0 splits into five fields, so
the claim demands the FieldCount error, but the parser reports the field
parse failure first (the Rust collect short-circuits before the length
check). -/
theorem color_fieldcount_cex :
    (splitSpace [48, 32, 48, 32, 48, 32, 120, 32, 48]).length = 5
    ∧ Color.fromStr [48, 32, 48, 32, 48, 32, 120, 32, 48]
      = Except.error (ColorError.RgbaParseError [48, 32, 48, 32, 48, 32, 120, 32, 48] [120]) :=
  ⟨rfl, rfl⟩

/-- C6 amended: parse fails with ChannelParse, carrying the original string
and the first offending field, exactly when some field is not a valid
0..=255 decimal; it fails with FieldCount only when every field parses but
their number is not four; when every field parses and there are four, it
succeeds. The three examples of the claim hold as given. -/
theorem color_parse_error_taxonomy :
    (∀ s : RStr,
      (∀ f, (splitSpace s).find? (fun t => (parseU8 t).isNone) = some f →
        Color.fromStr s = Except.error (ColorError.RgbaParseError s f))
      ∧ ((∀ t ∈ splitSpace s, (parseU8 t).isSome) → (splitSpace s).length ≠ 4 →
        Color.fromStr s = Except.error (ColorError.RgbaLengthError
          ((splitSpace s).map (fun t => (parseU8 t).getD 0))))
      ∧ ((∀ t ∈ splitSpace s, (parseU8 t).isSome) → (splitSpace s).length = 4 →
        ∃ c : Color, Color.fromStr s = Except.ok c))
    ∧ Color.fromStr [49, 50, 32, 51, 52, 32, 53, 54, 32, 55, 56] = Except.ok ⟨12, 34, 56, 78⟩
    ∧ Color.fromStr [49, 50, 32, 51, 52, 32, 53, 54]
      = Except.error (ColorError.RgbaLengthError [12, 34, 56])
    ∧ Color.fromStr [49, 50, 32, 51, 52, 32, 53, 54, 32, 51, 48, 48]
      = Except.error (ColorError.RgbaParseError
          [49, 50, 32, 51, 52, 32, 53, 54, 32, 51, 48, 48] [51, 48, 48]) := by
  refine ⟨fun s => ⟨?_, ?_, ?_⟩, by rfl, by rfl, by rfl⟩
  · intro f hf
    exact fromStr_eq_error s _ (collectRgba_first_bad s _ f hf)
  · intro hall hlen
    apply fromStr_eq_length_error s _ (collectRgba_all_some s _ hall)
    simpa using hlen
  · intro hall hlen
    obtain ⟨a, b, c, d, hshape⟩ :=
      length_four_shape ((splitSpace s).map (fun t => (parseU8 t).getD 0)) (by simpa using hlen)
    have hok := collectRgba_all_some s _ hall
    rw [hshape] at hok
    exact ⟨⟨a, b, c, d⟩, fromStr_eq_ok s a b c d hok⟩

/-- Witness for C6 amended: the FieldCount case at the concrete three-field
string 12 34 56, with the hypotheses discharged by evaluation. -/
theorem color_parse_error_taxonomy_witness :
    Color.fromStr [49, 50, 32, 51, 52, 32, 53, 54]
      = Except.error (ColorError.RgbaLengthError
          ((splitSpace [49, 50, 32, 51, 52, 32, 53, 54]).map (fun t => (parseU8 t).getD 0))) :=
  (color_parse_error_taxonomy.1 [49, 50, 32, 51, 52, 32, 53, 54]).2.1 (by decide) (by decide)

/-! ## Helper lemmas on the canvas buffer -/

theorem getD_set_self (l : List Pixel) (i : Nat) (p d : Pixel) (h : i < l.length) :
    (l.set i p).getD i d = p := by
  induction l generalizing i with
  | nil => simp at h
  | cons a l ih =>
    cases i with
    | zero => rfl
    | succ i =>
      show (l.set i p).getD i d = p
      exact ih i (by simpa using h)

theorem getD_set_ne (l : List Pixel) (i j : Nat) (p d : Pixel) (h : i ≠ j) :
    (l.set i p).getD j d = l.getD j d := by
  induction l generalizing i j with
  | nil => rfl
  | cons a l ih =>
    cases i with
    | zero =>
      cases j with
      | zero => exact absurd rfl h
      | succ j => rfl
    | succ i =>
      cases j with
      | zero => rfl
      | succ j =>
        show (l.set i p).getD j d = l.getD j d
        exact ih i j (by omega)

theorem getD_replicate (n i : Nat) (d e : Pixel) (h : i < n) :
    (List.replicate n d).getD i e = d := by
  induction n generalizing i with
  | zero => omega
  | succ n ih =>
    cases i with
    | zero => rfl
    | succ i =>
      show (List.replicate n d).getD i e = d
      exact ih i (by omega)

theorem rowmajor_lt (w h x y : Nat) (hx : x < w) (hy : y < h) : y * w + x < w * h := by
  calc y * w + x < y * w + w := by omega
    _ = (y + 1) * w := by ring
    _ ≤ h * w := Nat.mul_le_mul_right w (by omega)
    _ = w * h := Nat.mul_comm h w

theorem rowmajor_index_inj (w x1 y1 x2 y2 : Nat) (hx1 : x1 < w) (hx2 : x2 < w)
    (h : y1 * w + x1 = y2 * w + x2) : x1 = x2 ∧ y1 = y2 := by
  rcases Nat.lt_trichotomy y1 y2 with hy | hy | hy
  · exfalso
    have h2 : (y1 + 1) * w ≤ y2 * w := Nat.mul_le_mul_right w (by omega)
    rw [Nat.succ_mul] at h2
    omega
  · subst hy
    omega
  · exfalso
    have h2 : (y2 + 1) * w ≤ y1 * w := Nat.mul_le_mul_right w (by omega)
    rw [Nat.succ_mul] at h2
    omega

theorem getPixel_bounds {c : Canvas} {x y : Int} {p : Pixel} (h : c.getPixel x y = some p) :
    0 ≤ x ∧ x < (c.width : Int) ∧ 0 ≤ y ∧ y < (c.height : Int) := by
  unfold Canvas.getPixel at h
  by_cases hb : 0 ≤ x ∧ x < (c.width : Int) ∧ 0 ≤ y ∧ y < (c.height : Int)
  · exact hb
  · rw [if_neg hb] at h
    exact absurd h (by simp)

theorem getPixel_in_bounds (c : Canvas) (x y : Int)
    (h : 0 ≤ x ∧ x < (c.width : Int) ∧ 0 ≤ y ∧ y < (c.height : Int)) :
    c.getPixel x y = some (c.data.getD (y.toNat * c.width + x.toNat) defaultPixel) := by
  unfold Canvas.getPixel
  rw [if_pos h]

theorem putPixel_in_bounds (c : Canvas) (x y : Int) (p : Pixel)
    (h : 0 ≤ x ∧ x < (c.width : Int) ∧ 0 ≤ y ∧ y < (c.height : Int)) :
    c.putPixel x y p = some ⟨c.width, c.height, c.data.set (y.toNat * c.width + x.toNat) p⟩ := by
  unfold Canvas.putPixel
  rw [if_pos h]

theorem putPixel_bounds {c : Canvas} {x y : Int} {p : Pixel} {c2 : Canvas}
    (h : c.putPixel x y p = some c2) :
    0 ≤ x ∧ x < (c.width : Int) ∧ 0 ≤ y ∧ y < (c.height : Int) := by
  unfold Canvas.putPixel at h
  by_cases hb : 0 ≤ x ∧ x < (c.width : Int) ∧ 0 ≤ y ∧ y < (c.height : Int)
  · exact hb
  · rw [if_neg hb] at h
    exact absurd h (by simp)

theorem putPixel_dims {c : Canvas} {x y : Int} {p : Pixel} {c2 : Canvas}
    (h : c.putPixel x y p = some c2) :
    c2.width = c.width ∧ c2.height = c.height ∧ c2.data.length = c.data.length := by
  have hb := putPixel_bounds h
  rw [putPixel_in_bounds c x y p hb] at h
  injection h with h
  subst h
  simp

theorem putPixel_wf {c : Canvas} {x y : Int} {p : Pixel} {c2 : Canvas}
    (hwf : c.wf) (h : c.putPixel x y p = some c2) : c2.wf := by
  have hd := putPixel_dims h
  unfold Canvas.wf at hwf ⊢
  rw [hd.1, hd.2.1, hd.2.2]
  exact hwf

theorem getPixel_putPixel_self {c c2 : Canvas} {x y : Int} {p : Pixel}
    (hwf : c.wf) (h : c.putPixel x y p = some c2) : c2.getPixel x y = some p := by
  have hb := putPixel_bounds h
  rw [putPixel_in_bounds c x y p hb] at h
  injection h with h
  subst h
  rw [getPixel_in_bounds _ x y (by simpa using hb)]
  congr 1
  apply getD_set_self
  rw [hwf]
  exact rowmajor_lt c.width c.height x.toNat y.toNat (by omega) (by omega)

theorem getPixel_putPixel_ne {c c2 : Canvas} {a b x y : Int} {p : Pixel}
    (h : c.putPixel a b p = some c2) (hne : ¬(a = x ∧ b = y)) :
    c2.getPixel x y = c.getPixel x y := by
  have hb := putPixel_bounds h
  rw [putPixel_in_bounds c a b p hb] at h
  injection h with h
  subst h
  by_cases hxy : 0 ≤ x ∧ x < (c.width : Int) ∧ 0 ≤ y ∧ y < (c.height : Int)
  · rw [getPixel_in_bounds _ x y (by simpa using hxy), getPixel_in_bounds _ x y hxy]
    congr 1
    apply getD_set_ne
    intro hidx
    have hidx2 : b.toNat * c.width + a.toNat = y.toNat * c.width + x.toNat := by
      simpa using hidx
    obtain ⟨hx, hy⟩ := rowmajor_index_inj c.width a.toNat b.toNat x.toNat y.toNat
      (by omega) (by omega) hidx2
    exact hne ⟨by omega, by omega⟩
  · unfold Canvas.getPixel
    rw [if_neg (by simpa using hxy), if_neg hxy]

theorem compositeWrites_dims (ws : List (Int × Int × Pixel)) : ∀ c c2 : Canvas,
    compositeWrites c ws = some c2 →
    c2.width = c.width ∧ c2.height = c.height ∧ c2.data.length = c.data.length := by
  induction ws with
  | nil =>
    intro c c2 h
    simp only [compositeWrites] at h
    injection h with h
    subst h
    exact ⟨rfl, rfl, rfl⟩
  | cons w ws ih =>
    intro c c2 h
    simp only [compositeWrites] at h
    cases hg : c.getPixel w.1 w.2.1 with
    | none => simp [hg] at h
    | some p =>
      simp only [hg] at h
      by_cases hp : p = defaultPixel
      · rw [if_pos hp] at h
        cases hput : c.putPixel w.1 w.2.1 w.2.2 with
        | none => simp [hput] at h
        | some c1 =>
          simp only [hput] at h
          have hd := putPixel_dims hput
          have hi := ih c1 c2 h
          exact ⟨hi.1.trans hd.1, hi.2.1.trans hd.2.1, hi.2.2.trans hd.2.2⟩
      · rw [if_neg hp] at h
        exact ih c c2 h

theorem compositeWrites_wf {ws : List (Int × Int × Pixel)} {c c2 : Canvas}
    (hwf : c.wf) (h : compositeWrites c ws = some c2) : c2.wf := by
  have hd := compositeWrites_dims ws c c2 h
  unfold Canvas.wf at hwf ⊢
  rw [hd.1, hd.2.1, hd.2.2]
  exact hwf

theorem compositeWrites_append (ws1 ws2 : List (Int × Int × Pixel)) : ∀ c : Canvas,
    compositeWrites c (ws1 ++ ws2)
      = (compositeWrites c ws1).bind (fun c1 => compositeWrites c1 ws2) := by
  induction ws1 with
  | nil => intro c; simp [compositeWrites]
  | cons w ws ih =>
    intro c
    simp only [List.cons_append, compositeWrites]
    cases hg : c.getPixel w.1 w.2.1 with
    | none => simp
    | some p =>
      dsimp only
      by_cases hp : p = defaultPixel
      · rw [if_pos hp]
        cases hput : c.putPixel w.1 w.2.1 w.2.2 with
        | none => simp
        | some c1 => simp [ih c1]
      · rw [if_neg hp]
        simp [ih c]

theorem compositeWrites_total (ws : List (Int × Int × Pixel)) : ∀ c : Canvas, c.wf →
    (∀ w ∈ ws, 0 ≤ w.1 ∧ w.1 < (c.width : Int) ∧ 0 ≤ w.2.1 ∧ w.2.1 < (c.height : Int)) →
    ∃ c2, compositeWrites c ws = some c2 := by
  induction ws with
  | nil =>
    intro c _ _
    exact ⟨c, rfl⟩
  | cons w ws ih =>
    intro c hwf hb
    have hw := hb w (by simp)
    have hget := getPixel_in_bounds c w.1 w.2.1 hw
    simp only [compositeWrites, hget]
    by_cases hp : c.data.getD (w.2.1.toNat * c.width + w.1.toNat) defaultPixel = defaultPixel
    · rw [if_pos hp]
      have hput := putPixel_in_bounds c w.1 w.2.1 w.2.2 hw
      rw [hput]
      have hwf1 : Canvas.wf
          ⟨c.width, c.height, c.data.set (w.2.1.toNat * c.width + w.1.toNat) w.2.2⟩ := by
        unfold Canvas.wf at hwf ⊢
        simpa using hwf
      exact ih _ hwf1 (fun v hv => by simpa using hb v (by simp [hv]))
    · rw [if_neg hp]
      exact ih c hwf (fun v hv => hb v (by simp [hv]))

theorem compositeWrites_pixel (ws : List (Int × Int × Pixel)) : ∀ c c2 : Canvas, c.wf →
    compositeWrites c ws = some c2 → ∀ x y : Int, ∀ p : Pixel, c.getPixel x y = some p →
    c2.getPixel x y = some (if p = defaultPixel then survivingPixel x y ws else p) := by
  induction ws with
  | nil =>
    intro c c2 _ h x y p hp
    simp only [compositeWrites] at h
    injection h with h
    subst h
    simp only [survivingPixel]
    by_cases hd : p = defaultPixel
    · rw [if_pos hd, hp, hd]
    · rw [if_neg hd, hp]
  | cons w ws ih =>
    intro c c2 hwf h x y p hp
    simp only [compositeWrites] at h
    cases hg : c.getPixel w.1 w.2.1 with
    | none => simp [hg] at h
    | some q =>
      simp only [hg] at h
      by_cases hq : q = defaultPixel
      · rw [if_pos hq] at h
        cases hput : c.putPixel w.1 w.2.1 w.2.2 with
        | none =>
          rw [putPixel_in_bounds c w.1 w.2.1 w.2.2 (getPixel_bounds hg)] at hput
          exact absurd hput (by simp)
        | some c1 =>
          simp only [hput] at h
          have hwf1 := putPixel_wf hwf hput
          by_cases hxy : w.1 = x ∧ w.2.1 = y
          · obtain ⟨hwx, hwy⟩ := hxy
            have hpq : p = q := by
              rw [hwx, hwy] at hg
              rw [hg] at hp
              exact (Option.some.inj hp).symm
            have hget1 : c1.getPixel x y = some w.2.2 := by
              rw [← hwx, ← hwy]
              exact getPixel_putPixel_self hwf hput
            rw [ih c1 c2 hwf1 h x y w.2.2 hget1]
            congr 1
            have hpd : p = defaultPixel := by rw [hpq, hq]
            simp only [survivingPixel, hwx, hwy, hpd]
            by_cases hw2 : w.2.2 = defaultPixel
            · simp [hw2]
            · simp [hw2]
          · have hget1 : c1.getPixel x y = c.getPixel x y := getPixel_putPixel_ne hput hxy
            rw [ih c1 c2 hwf1 h x y p (by rw [hget1]; exact hp)]
            congr 1
            by_cases hd : p = defaultPixel
            · rw [if_pos hd, if_pos hd]
              simp only [survivingPixel]
              rw [if_neg (by rintro ⟨h1, h2, _⟩; exact hxy ⟨h1, h2⟩)]
            · rw [if_neg hd, if_neg hd]
      · rw [if_neg hq] at h
        rw [ih c c2 hwf h x y p hp]
        congr 1
        by_cases hd : p = defaultPixel
        · rw [if_pos hd, if_pos hd]
          simp only [survivingPixel]
          rw [if_neg ?hcond]
          case hcond =>
            rintro ⟨hwx, hwy, _⟩
            rw [hwx, hwy] at hg
            rw [hp] at hg
            injection hg with hg
            exact hq (by rw [← hg, hd])
        · rw [if_neg hd, if_neg hd]

theorem foldlM_samples_eq_writes (color : Color) (bb : BBox) (ss : List Sample) : ∀ c : Canvas,
    ss.foldlM (compositeSample color bb) c
      = compositeWrites c
          (ss.map (fun s => (convX bb s.x, convY bb s.y, computePixel color s.vn s.vd))) := by
  induction ss with
  | nil => intro c; simp [compositeWrites]
  | cons s ss ih =>
    intro c
    rw [List.foldlM_cons, List.map_cons]
    simp only [compositeWrites]
    cases hg : c.getPixel (convX bb s.x) (convY bb s.y) with
    | none => simp [compositeSample, hg]
    | some p =>
      dsimp only
      by_cases hp : p = defaultPixel
      · rw [if_pos hp]
        cases hput : c.putPixel (convX bb s.x) (convY bb s.y) (computePixel color s.vn s.vd) with
        | none => simp [compositeSample, hg, hput, hp]
        | some c1 => simp [compositeSample, hg, hput, hp, ih c1]
      · rw [if_neg hp]
        simp [compositeSample, hg, hp, ih c]

theorem compositeGlyph_eq_writes (color : Color) (c : Canvas) (g : Glyph) :
    compositeGlyph color c g = compositeWrites c (glyphWrites color g) := by
  cases hbb : g.bb with
  | none => simp [compositeGlyph, glyphWrites, hbb, compositeWrites]
  | some bb =>
    simp only [compositeGlyph, glyphWrites, hbb]
    exact foldlM_samples_eq_writes color bb g.samples c

theorem compositeGlyphs_eq_writes (color : Color) (gs : List Glyph) : ∀ c : Canvas,
    compositeGlyphs color c gs = compositeWrites c (allWrites color gs) := by
  induction gs with
  | nil => intro c; simp [compositeGlyphs, allWrites, compositeWrites]
  | cons g gs ih =>
    intro c
    have hstep : compositeGlyphs color c (g :: gs)
        = (compositeGlyph color c g).bind (fun c1 => compositeGlyphs color c1 gs) := by
      simp [compositeGlyphs, List.foldlM_cons]
    have hall : allWrites color (g :: gs) = glyphWrites color g ++ allWrites color gs := by
      simp [allWrites]
    rw [hstep, compositeGlyph_eq_writes, hall, compositeWrites_append]
    cases hw : compositeWrites c (glyphWrites color g) with
    | none => simp
    | some c1 => simp [ih c1]

theorem extents_foldl_mono (gs : List Glyph) : ∀ e : Extents,
    (gs.foldl updateExtents e).minX ≤ e.minX ∧ e.maxX ≤ (gs.foldl updateExtents e).maxX
    ∧ (gs.foldl updateExtents e).minY ≤ e.minY ∧ e.maxY ≤ (gs.foldl updateExtents e).maxY := by
  induction gs with
  | nil =>
    intro e
    simp
  | cons g gs ih =>
    intro e
    rw [List.foldl_cons]
    have hu : (updateExtents e g).minX ≤ e.minX ∧ e.maxX ≤ (updateExtents e g).maxX
        ∧ (updateExtents e g).minY ≤ e.minY ∧ e.maxY ≤ (updateExtents e g).maxY := by
      cases hbb : g.bb with
      | none => simp [updateExtents, hbb]
      | some bb =>
        simp only [updateExtents, hbb]
        refine ⟨?_, ?_, ?_, ?_⟩ <;> dsimp only <;> split <;> omega
    obtain ⟨h1, h2, h3, h4⟩ := ih (updateExtents e g)
    exact ⟨le_trans h1 hu.1, le_trans hu.2.1 h2, le_trans h3 hu.2.2.1, le_trans hu.2.2.2 h4⟩

theorem extents_foldl_mem (gs : List Glyph) : ∀ e : Extents, ∀ g ∈ gs, ∀ bb : BBox,
    g.bb = some bb →
    (gs.foldl updateExtents e).minX ≤ bb.minX ∧ bb.maxX ≤ (gs.foldl updateExtents e).maxX
    ∧ (gs.foldl updateExtents e).minY ≤ bb.minY ∧ bb.maxY ≤ (gs.foldl updateExtents e).maxY := by
  induction gs with
  | nil =>
    intro e g hg
    simp at hg
  | cons g0 gs ih =>
    intro e g hg bb hbb
    rw [List.foldl_cons]
    rcases List.mem_cons.mp hg with h | h
    · subst h
      have hu : (updateExtents e g).minX ≤ bb.minX ∧ bb.maxX ≤ (updateExtents e g).maxX
          ∧ (updateExtents e g).minY ≤ bb.minY ∧ bb.maxY ≤ (updateExtents e g).maxY := by
        simp only [updateExtents, hbb]
        refine ⟨?_, ?_, ?_, ?_⟩ <;> dsimp only <;> split <;> omega
      obtain ⟨m1, m2, m3, m4⟩ := extents_foldl_mono gs (updateExtents e g)
      exact ⟨le_trans m1 hu.1, le_trans hu.2.1 m2, le_trans m3 hu.2.2.1, le_trans hu.2.2.2 m4⟩
    · exact ih (updateExtents e g0) g h bb hbb

theorem computeExtents_nonneg (gs : List Glyph) :
    (computeExtents gs).minX ≤ 0 ∧ 0 ≤ (computeExtents gs).maxX
    ∧ (computeExtents gs).minY ≤ 0 ∧ 0 ≤ (computeExtents gs).maxY := by
  have h := extents_foldl_mono gs ⟨0, 0, 0, 0⟩
  exact h

theorem computeExtents_bb (gs : List Glyph) (g : Glyph) (hg : g ∈ gs) (bb : BBox)
    (hbb : g.bb = some bb) :
    (computeExtents gs).minX ≤ bb.minX ∧ bb.maxX ≤ (computeExtents gs).maxX
    ∧ (computeExtents gs).minY ≤ bb.minY ∧ bb.maxY ≤ (computeExtents gs).maxY :=
  extents_foldl_mem gs ⟨0, 0, 0, 0⟩ g hg bb hbb

theorem extents_foldl_none (gs : List Glyph) : ∀ e : Extents, (∀ g ∈ gs, g.bb = none) →
    gs.foldl updateExtents e = e := by
  induction gs with
  | nil => intro e _; rfl
  | cons g gs ih =>
    intro e h
    rw [List.foldl_cons]
    have hg := h g (by simp)
    have hu : updateExtents e g = e := by simp [updateExtents, hg]
    rw [hu, ih e (fun d hd => h d (by simp [hd]))]

theorem canvasNew_wf (w h : Nat) : (Canvas.new w h).wf := by
  simp [Canvas.new, Canvas.wf]

theorem canvasNew_getPixel (w h : Nat) (x y : Int)
    (hb : 0 ≤ x ∧ x < (w : Int) ∧ 0 ≤ y ∧ y < (h : Int)) :
    (Canvas.new w h).getPixel x y = some defaultPixel := by
  rw [getPixel_in_bounds (Canvas.new w h) x y (by simpa [Canvas.new] using hb)]
  congr 1
  apply getD_replicate
  exact rowmajor_lt w h x.toNat y.toNat (by omega) (by omega)

theorem rasterize_eq_writes (nfc : RStr → RStr) (text : RStr) (font : Font) (size : ℚ)
    (color : Color) :
    rasterize nfc text font size color
      = compositeWrites
          (Canvas.new
            ((computeExtents (layoutOf nfc text font size)).maxX
              - (computeExtents (layoutOf nfc text font size)).minX).toNat
            ((computeExtents (layoutOf nfc text font size)).maxY
              - (computeExtents (layoutOf nfc text font size)).minY).toNat)
          (allWrites color (layoutOf nfc text font size)) := by
  unfold rasterize
  rw [compositeGlyphs_eq_writes]

theorem writes_in_extents (color : Color) (gs : List Glyph) (hwf : ∀ g ∈ gs, Glyph.wf g) :
    ∀ w ∈ allWrites color gs,
      0 ≤ w.1 ∧ w.1 < (computeExtents gs).maxX - (computeExtents gs).minX
      ∧ 0 ≤ w.2.1 ∧ w.2.1 < (computeExtents gs).maxY - (computeExtents gs).minY := by
  intro w hw
  rw [allWrites, List.mem_flatMap] at hw
  obtain ⟨g, hg, hwg⟩ := hw
  rw [glyphWrites] at hwg
  cases hbb : g.bb with
  | none =>
    rw [hbb] at hwg
    simp at hwg
  | some bb =>
    rw [hbb] at hwg
    simp only [List.mem_map] at hwg
    obtain ⟨s, hs, hws⟩ := hwg
    subst hws
    obtain ⟨hsx, hsy⟩ := hwf g hg bb hbb s hs
    obtain ⟨e1, e2, e3, e4⟩ := computeExtents_bb gs g hg bb hbb
    obtain ⟨n1, n2, n3, n4⟩ := computeExtents_nonneg gs
    refine ⟨?_, ?_, ?_, ?_⟩
    · show 0 ≤ convX bb s.x
      unfold convX
      split <;> omega
    · show convX bb s.x < (computeExtents gs).maxX - (computeExtents gs).minX
      unfold convX
      split <;> omega
    · show 0 ≤ convY bb s.y
      unfold convY
      split <;> omega
    · show convY bb s.y < (computeExtents gs).maxY - (computeExtents gs).minY
      unfold convY
      split <;> omega

theorem composite_gs_total (color : Color) (gs : List Glyph) (hwf : ∀ g ∈ gs, Glyph.wf g) :
    ∃ cv, compositeGlyphs color
        (Canvas.new ((computeExtents gs).maxX - (computeExtents gs).minX).toNat
          ((computeExtents gs).maxY - (computeExtents gs).minY).toNat) gs = some cv := by
  rw [compositeGlyphs_eq_writes]
  apply compositeWrites_total _ _ (canvasNew_wf _ _)
  intro w hw
  have hb := writes_in_extents color gs hwf w hw
  obtain ⟨n1, n2, n3, n4⟩ := computeExtents_nonneg gs
  simp only [Canvas.new]
  refine ⟨hb.1, ?_, hb.2.2.1, ?_⟩ <;> omega

theorem composite_new_pixel (color : Color) (gs : List Glyph) (W H : Nat) (cv : Canvas)
    (x y : Int) (p : Pixel)
    (h : compositeWrites (Canvas.new W H) (allWrites color gs) = some cv)
    (hp : cv.getPixel x y = some p) :
    p = survivingPixel x y (allWrites color gs) := by
  have hd := compositeWrites_dims _ _ _ h
  have hbv := getPixel_bounds hp
  have hb0 : 0 ≤ x ∧ x < ((W : Nat) : Int) ∧ 0 ≤ y ∧ y < ((H : Nat) : Int) := by
    have h1 : cv.width = W := hd.1
    have h2 : cv.height = H := hd.2.1
    rw [h1, h2] at hbv
    exact hbv
  have hget0 := canvasNew_getPixel W H x y hb0
  have hchar := compositeWrites_pixel (allWrites color gs) (Canvas.new W H) cv
    (canvasNew_wf W H) h x y defaultPixel hget0
  rw [if_pos rfl] at hchar
  rw [hchar] at hp
  exact (Option.some.inj hp).symm

theorem allWrites_none (color : Color) (gs : List Glyph) (h : ∀ g ∈ gs, g.bb = none) :
    allWrites color gs = [] := by
  induction gs with
  | nil => rfl
  | cons g gs ih =>
    have h1 : glyphWrites color g = [] := by simp [glyphWrites, h g (by simp)]
    have h2 := ih (fun d hd => h d (by simp [hd]))
    simp only [allWrites, List.flatMap_cons] at h2 ⊢
    rw [h1, h2]
    rfl

theorem scaleChannel_eq (c vn vd : Nat) (hvd : 0 < vd) (hv1 : vn ≤ vd) (hc : c ≤ 255) :
    scaleChannel c vn vd = ⌊(c : ℚ) * ((vn : ℚ) / (vd : ℚ))⌋₊ ∧ scaleChannel c vn vd ≤ 255 := by
  have hdiv : c * vn / vd ≤ 255 := by
    have h1 : c * vn / vd ≤ c * vd / vd := Nat.div_le_div_right (Nat.mul_le_mul_left c hv1)
    have h2 : c * vd / vd = c := by
      rw [Nat.mul_div_assoc c (dvd_refl vd), Nat.div_self hvd, Nat.mul_one]
    omega
  have hfl : ⌊(c : ℚ) * ((vn : ℚ) / (vd : ℚ))⌋₊ = c * vn / vd := by
    rw [show (c : ℚ) * ((vn : ℚ) / (vd : ℚ)) = ((c * vn : Nat) : ℚ) / ((vd : Nat) : ℚ) by
      push_cast
      ring]
    exact Nat.floor_div_nat _ _
  constructor
  · rw [hfl]
    unfold scaleChannel Nat.min
    exact min_eq_right hdiv
  · unfold scaleChannel Nat.min
    exact min_le_left _ _

/-! ## Claim theorems for the rasterization pipeline -/

/-- C1: for every rasterize call the canvas dimensions are ink-driven; the
width is maxX minus minX and the height is maxY minus minY of the extents
accumulated over the pixel bounding boxes of the laid-out glyphs, starting
from (0, 0, 0, 0); the metrics-derived height ceil(ascent minus descent) of
the older variant is commented out in the source and plays no role, so when
it differs from the measured ink extents, the measured extents determine the
canvas height. The u32 dimensions are the toNat of the Int differences,
which are nonnegative. -/
theorem rasterize_dims_ink_driven (nfc : RStr → RStr) (text : RStr) (font : Font) (size : ℚ)
    (color : Color) (cv : Canvas) (h : rasterize nfc text font size color = some cv) :
    cv.width = ((computeExtents (layoutOf nfc text font size)).maxX
        - (computeExtents (layoutOf nfc text font size)).minX).toNat
    ∧ cv.height = ((computeExtents (layoutOf nfc text font size)).maxY
        - (computeExtents (layoutOf nfc text font size)).minY).toNat := by
  rw [rasterize_eq_writes] at h
  have hd := compositeWrites_dims _ _ _ h
  exact ⟨hd.1, hd.2.1⟩

/-- Witness for C1 at the concrete two-glyph test font. -/
theorem rasterize_dims_ink_driven_witness :
    (Canvas.mk 1 1 [(255, 0, 0, 255)]).width
      = ((computeExtents (layoutOf id [] demoFont 50)).maxX
        - (computeExtents (layoutOf id [] demoFont 50)).minX).toNat
    ∧ (Canvas.mk 1 1 [(255, 0, 0, 255)]).height
      = ((computeExtents (layoutOf id [] demoFont 50)).maxY
        - (computeExtents (layoutOf id [] demoFont 50)).minY).toNat :=
  rasterize_dims_ink_driven id [] demoFont 50 demoColor ⟨1, 1, [(255, 0, 0, 255)]⟩ (by decide)

/-- C2 is false as stated: in the two-glyph test font both coverage samples
target canvas location (0, 0) and the earlier glyph in layout order produces
the pixel (0, 0, 0, 0) (zero coverage), yet the final canvas pixel is the
later glyph's (255, 0, 0, 255): a write of the default-valued pixel does not
claim the location, so the pixel produced by the earlier glyph does not
always survive. -/
theorem first_writer_wins_cex :
    (convX ⟨0, 0, 1, 1⟩ 0, convY ⟨0, 0, 1, 1⟩ 0) = ((0 : Int), (0 : Int))
    ∧ ((rasterize id [] demoFont 50 demoColor).bind (fun cv => cv.getPixel 0 0))
        = some (computePixel demoColor 1 1)
    ∧ ((rasterize id [] demoFont 50 demoColor).bind (fun cv => cv.getPixel 0 0))
        ≠ some (computePixel demoColor 0 1)
    ∧ computePixel demoColor 1 1 ≠ computePixel demoColor 0 1 :=
  ⟨by decide, by decide, by decide, by decide⟩

/-- C2 amended: during compositing a pixel value is written at (cx, cy) only
if the pixel currently stored there equals the default (0, 0, 0, 0),
otherwise the existing pixel is left untouched; consequently a location
holding a non-default pixel never changes again, so repainting never darkens
it, and at an overlapped location the earlier glyph wins whenever its
computed pixel is non-default. -/
theorem first_writer_wins_amended :
    (∀ (color : Color) (bb : BBox) (c : Canvas) (s : Sample) (p : Pixel),
      c.getPixel (convX bb s.x) (convY bb s.y) = some p → p ≠ defaultPixel →
      compositeSample color bb c s = some c)
    ∧ (∀ (ws : List (Int × Int × Pixel)) (c c2 : Canvas) (x y : Int) (p : Pixel),
      c.wf → compositeWrites c ws = some c2 → c.getPixel x y = some p → p ≠ defaultPixel →
      c2.getPixel x y = some p) := by
  constructor
  · intro color bb c s p hget hp
    simp [compositeSample, hget, hp]
  · intro ws c c2 x y p hwf h hget hp
    rw [compositeWrites_pixel ws c c2 hwf h x y p hget, if_neg hp]

/-- Witness for C2 amended: a canvas whose only pixel is non-default is left
untouched by a sample targeting it. -/
theorem first_writer_wins_amended_witness :
    compositeSample demoColor ⟨0, 0, 1, 1⟩ ⟨1, 1, [(9, 9, 9, 9)]⟩ ⟨0, 0, 1, 1⟩
      = some ⟨1, 1, [(9, 9, 9, 9)]⟩ :=
  first_writer_wins_amended.1 demoColor ⟨0, 0, 1, 1⟩ ⟨1, 1, [(9, 9, 9, 9)]⟩ ⟨0, 0, 1, 1⟩
    (9, 9, 9, 9) (by decide) (by decide)

/-- C3: every coverage sample is composited exactly at the canvas
coordinates given by the spec's clamping rule on both axes (specCx and
specCy are written from the spec's words): the code reads that location and
conditionally writes the computed pixel there. -/
theorem compositeSample_spec_coords (color : Color) (bb : BBox) (c : Canvas) (s : Sample)
    (p : Pixel) (hget : c.getPixel (specCx bb s.x) (specCy bb s.y) = some p) :
    compositeSample color bb c s
      = (if p = defaultPixel
          then c.putPixel (specCx bb s.x) (specCy bb s.y) (computePixel color s.vn s.vd)
          else some c) := by
  have hx : convX bb s.x = specCx bb s.x := rfl
  have hy : convY bb s.y = specCy bb s.y := rfl
  simp only [compositeSample, hx, hy, hget]

/-- Witness for C3 with a negative bounding-box origin on both axes, where
the clamping rule places the sample at its relative coordinates. -/
theorem compositeSample_spec_coords_witness :
    compositeSample demoColor ⟨-2, -1, 4, 5⟩ (Canvas.new 6 6) ⟨1, 2, 1, 2⟩
      = (if (defaultPixel : Pixel) = defaultPixel
          then (Canvas.new 6 6).putPixel (specCx ⟨-2, -1, 4, 5⟩ 1) (specCy ⟨-2, -1, 4, 5⟩ 2)
            (computePixel demoColor 1 2)
          else some (Canvas.new 6 6)) :=
  compositeSample_spec_coords demoColor ⟨-2, -1, 4, 5⟩ (Canvas.new 6 6) ⟨1, 2, 1, 2⟩
    defaultPixel (by decide)

/-- C4: for every input text, font layout, size and color, provided the font
engine keeps its contract (all samples lie inside their glyph's pixel
bounding box), every canvas coordinate read or written during compositing
satisfies 0 ≤ cx < W and 0 ≤ cy < H, and rasterize returns a canvas, so the
guarded get_pixel and put_pixel accesses never go out of bounds and
compositing cannot panic. -/
theorem rasterize_no_oob (nfc : RStr → RStr) (text : RStr) (font : Font) (size : ℚ)
    (color : Color) (hwf : ∀ g ∈ layoutOf nfc text font size, Glyph.wf g) :
    (∀ w ∈ allWrites color (layoutOf nfc text font size),
      0 ≤ w.1 ∧ w.1 < (computeExtents (layoutOf nfc text font size)).maxX
          - (computeExtents (layoutOf nfc text font size)).minX
      ∧ 0 ≤ w.2.1 ∧ w.2.1 < (computeExtents (layoutOf nfc text font size)).maxY
          - (computeExtents (layoutOf nfc text font size)).minY)
    ∧ ∃ cv, rasterize nfc text font size color = some cv := by
  refine ⟨writes_in_extents color _ hwf, ?_⟩
  obtain ⟨cv, hcv⟩ := composite_gs_total color (layoutOf nfc text font size) hwf
  exact ⟨cv, hcv⟩

/-- Witness for C4 at the negative-origin test font, whose glyph is
well-formed. -/
theorem rasterize_no_oob_witness :
    (∀ w ∈ allWrites demoColor (layoutOf id [] negFont 50),
      0 ≤ w.1 ∧ w.1 < (computeExtents (layoutOf id [] negFont 50)).maxX
          - (computeExtents (layoutOf id [] negFont 50)).minX
      ∧ 0 ≤ w.2.1 ∧ w.2.1 < (computeExtents (layoutOf id [] negFont 50)).maxY
          - (computeExtents (layoutOf id [] negFont 50)).minY)
    ∧ ∃ cv, rasterize id [] negFont 50 demoColor = some cv :=
  rasterize_no_oob id [] negFont 50 demoColor (by
    intro g hg bb hbb s hs
    fin_cases hg
    simp only [negG] at hbb
    injection hbb with hbb
    subst hbb
    fin_cases hs <;> decide)

/-- C7: each written pixel channel is the truncation toward zero (the
natural-number floor, since the product is nonnegative) of the
channel-coverage product, never rounded to nearest, and the computation
cannot overflow an 8-bit channel: the saturating upper clamp of the u8 cast
never fires when 0 ≤ v ≤ 1 and the channels are at most 255. At coverage one
half the channel 255 truncates to 127 rather than rounding to 128. -/
theorem computePixel_truncation :
    (∀ (color : Color) (vn vd : Nat), 0 < vd → vn ≤ vd →
      color.r ≤ 255 → color.g ≤ 255 → color.b ≤ 255 → color.a ≤ 255 →
      computePixel color vn vd
        = (⌊(color.r : ℚ) * ((vn : ℚ) / (vd : ℚ))⌋₊, ⌊(color.g : ℚ) * ((vn : ℚ) / (vd : ℚ))⌋₊,
           ⌊(color.b : ℚ) * ((vn : ℚ) / (vd : ℚ))⌋₊, ⌊(color.a : ℚ) * ((vn : ℚ) / (vd : ℚ))⌋₊)
      ∧ scaleChannel color.r vn vd ≤ 255 ∧ scaleChannel color.g vn vd ≤ 255
      ∧ scaleChannel color.b vn vd ≤ 255 ∧ scaleChannel color.a vn vd ≤ 255)
    ∧ computePixel ⟨255, 255, 255, 255⟩ 1 2 = (127, 127, 127, 127) := by
  constructor
  · intro color vn vd hvd hv1 hr hg hb ha
    obtain ⟨er, br⟩ := scaleChannel_eq color.r vn vd hvd hv1 hr
    obtain ⟨eg, bg⟩ := scaleChannel_eq color.g vn vd hvd hv1 hg
    obtain ⟨eb, bb⟩ := scaleChannel_eq color.b vn vd hvd hv1 hb
    obtain ⟨ea, ba⟩ := scaleChannel_eq color.a vn vd hvd hv1 ha
    refine ⟨?_, br, bg, bb, ba⟩
    unfold computePixel
    rw [er, eg, eb, ea]
  · decide

/-- Witness for C7 at a concrete color and coverage one quarter. -/
theorem computePixel_truncation_witness :
    computePixel ⟨200, 100, 50, 255⟩ 1 4
      = (⌊((200 : Nat) : ℚ) * (((1 : Nat) : ℚ) / ((4 : Nat) : ℚ))⌋₊,
         ⌊((100 : Nat) : ℚ) * (((1 : Nat) : ℚ) / ((4 : Nat) : ℚ))⌋₊,
         ⌊((50 : Nat) : ℚ) * (((1 : Nat) : ℚ) / ((4 : Nat) : ℚ))⌋₊,
         ⌊((255 : Nat) : ℚ) * (((1 : Nat) : ℚ) / ((4 : Nat) : ℚ))⌋₊)
    ∧ scaleChannel 200 1 4 ≤ 255 ∧ scaleChannel 100 1 4 ≤ 255
    ∧ scaleChannel 50 1 4 ≤ 255 ∧ scaleChannel 255 1 4 ≤ 255 :=
  computePixel_truncation.1 ⟨200, 100, 50, 255⟩ 1 4 (by decide) (by decide)
    (by decide) (by decide) (by decide) (by decide)

/-- C8: rasterize normalizes the text before layout, so any two inputs that
normalize to the same string (NFC-equivalent texts) rasterize to identical
canvases; the normalization function is the opaque external collaborator,
passed as a parameter. -/
theorem rasterize_nfc_invariant (nfc : RStr → RStr) (t1 t2 : RStr) (font : Font) (size : ℚ)
    (color : Color) (h : nfc t1 = nfc t2) :
    rasterize nfc t1 font size color = rasterize nfc t2 font size color := by
  unfold rasterize layoutOf
  rw [h]

/-- Witness for C8 with a collapsing normalization and two distinct texts. -/
theorem rasterize_nfc_invariant_witness :
    rasterize (fun _ => []) [65] demoFont 50 demoColor
      = rasterize (fun _ => []) [66] demoFont 50 demoColor :=
  rasterize_nfc_invariant (fun _ => []) [65] [66] demoFont 50 demoColor rfl

/-- C9: when every laid-out glyph lacks a pixel bounding box (empty text or
all-whitespace text), rasterize returns a valid zero-sized canvas, with
width and height both zero, without error. -/
theorem rasterize_empty_canvas (nfc : RStr → RStr) (text : RStr) (font : Font) (size : ℚ)
    (color : Color) (h : ∀ g ∈ layoutOf nfc text font size, g.bb = none) :
    rasterize nfc text font size color = some (Canvas.new 0 0)
    ∧ (Canvas.new 0 0).width = 0 ∧ (Canvas.new 0 0).height = 0 := by
  refine ⟨?_, rfl, rfl⟩
  have hext : computeExtents (layoutOf nfc text font size) = ⟨0, 0, 0, 0⟩ :=
    extents_foldl_none _ _ h
  have hwrites : allWrites color (layoutOf nfc text font size) = [] :=
    allWrites_none color _ h
  rw [rasterize_eq_writes, hext, hwrites]
  rfl

/-- Witness for C9 at a font that lays out one inkless glyph. -/
theorem rasterize_empty_canvas_witness :
    rasterize id [] blankFont 50 demoColor = some (Canvas.new 0 0)
    ∧ (Canvas.new 0 0).width = 0 ∧ (Canvas.new 0 0).height = 0 :=
  rasterize_empty_canvas id [] blankFont 50 demoColor (by decide)

/-- C10: a coverage sample whose computed pixel equals the default does not
claim its canvas location, so the pixel that survives at any location of the
returned canvas is the first write in composite order whose computed pixel
is non-default (or the default when there is none), not necessarily the
first write overall. -/
theorem rasterize_first_nondefault_wins (nfc : RStr → RStr) (text : RStr) (font : Font)
    (size : ℚ) (color : Color) (cv : Canvas) (x y : Int) (p : Pixel)
    (h : rasterize nfc text font size color = some cv)
    (hp : cv.getPixel x y = some p) :
    p = survivingPixel x y (allWrites color (layoutOf nfc text font size)) := by
  rw [rasterize_eq_writes] at h
  exact composite_new_pixel color (layoutOf nfc text font size) _ _ cv x y p h hp

/-- Witness for C10 at the two-glyph test font: the surviving pixel at the
overlapped location is the second write's, because the first write's
computed pixel is the default. -/
theorem rasterize_first_nondefault_wins_witness :
    ((255 : Nat), (0 : Nat), (0 : Nat), (255 : Nat))
      = survivingPixel 0 0 (allWrites demoColor (layoutOf id [] demoFont 50)) :=
  rasterize_first_nondefault_wins id [] demoFont 50 demoColor ⟨1, 1, [(255, 0, 0, 255)]⟩ 0 0
    (255, 0, 0, 255) (by decide) (by decide)
